import Mathlib

/-!
Verification development for the LenderPro amortization core.

This file gives a shallow embedding of the computational core of the
repository and proves properties about it:

* the date helpers `addTime` and `calculateDurationFromDates`
  (source `src/unnamed/part_001`, lines 43-82): JavaScript `Date` values
  are modelled as calendar triples `(year, month, day)`; since every date
  handled by the code is pinned to local noon (or compared after both
  sides are normalized to midnight), timestamp comparison of two such
  `Date` objects coincides with comparison of their day ordinals, which we
  compute with `dayNumber`.  `setDate`/`setMonth` overflow follows the
  ECMAScript `MakeDay` normalization, embedded in `addDays` / `addMonths`.
* the schedule generator `calculateSchedule` (same file, lines 93-208),
  with money amounts embedded as rationals (exact arithmetic standing in
  for IEEE doubles; the spec's tolerance claims are stated against this
  exact model).
* the display-status helper `getInstallmentStatus` (lines 212-223), with
  the wall-clock read `new Date()` made an explicit `today` parameter.
* the ledger operation `StorageService.payInstallment`
  (source `src/lenderpro/services/storage.ts`, lines 133-170), embedded as
  a pure transform on a single `Loan` value (the surrounding loan-list
  lookup is the persistence collaborator, out of the core per the spec);
  the JavaScript `null` return becomes `Option.none`.  Timestamps passed
  as `paymentDate` are opaque, modelled by `ℕ`.
-/

set_option maxRecDepth 10000

/-! ### Enumerations (source `src/unnamed/part_003`, types) -/

inductive Frequency
  | DAILY
  | WEEKLY
  | BIWEEKLY
  | MONTHLY
  deriving DecidableEq

inductive LoanType
  | SIMPLE
  | FRENCH
  deriving DecidableEq

inductive InterestType
  | PERCENTAGE
  | FIXED_AMOUNT
  deriving DecidableEq

inductive InstallmentStatus
  | PENDING
  | PAID
  | LATE
  deriving DecidableEq

inductive LoanStatus
  | ACTIVE
  | COMPLETED
  | DEFAULTED
  deriving DecidableEq

/-! ### Calendar model

A JavaScript `Date` at local noon is a calendar triple.  `dayNumber` is
the proleptic-Gregorian day ordinal; since all dates the code compares
carry the same time of day, `Date` timestamp order is `dayNumber` order. -/

structure Date where
  y : ℕ
  m : ℕ
  d : ℕ
  deriving DecidableEq

def isLeap (y : ℕ) : Bool :=
  (y % 4 == 0 && y % 100 != 0) || y % 400 == 0

def daysInMonth (y m : ℕ) : ℕ :=
  if m = 2 then (if isLeap y then 29 else 28)
  else if m = 4 ∨ m = 6 ∨ m = 9 ∨ m = 11 then 30
  else 31

def Date.Valid (dt : Date) : Prop :=
  1 ≤ dt.y ∧ 1 ≤ dt.m ∧ dt.m ≤ 12 ∧ 1 ≤ dt.d ∧ dt.d ≤ daysInMonth dt.y dt.m

instance (dt : Date) : Decidable dt.Valid := by
  unfold Date.Valid; infer_instance

/-- Leap years strictly before year `y` (years counted from 1). -/
def leapsBefore (y : ℕ) : ℕ :=
  (y - 1) / 4 + (y - 1) / 400 - (y - 1) / 100

/-- Days in months of year `y` strictly before month `m`. -/
def daysBeforeMonth (y : ℕ) : ℕ → ℕ
  | 0 => 0
  | 1 => 0
  | m + 2 => daysBeforeMonth y (m + 1) + daysInMonth y (m + 1)

/-- Day ordinal of a date: the number of days from the calendar origin.
Plays the role of the `Date` timestamp for comparisons. -/
def dayNumber (dt : Date) : ℕ :=
  365 * (dt.y - 1) + leapsBefore dt.y + daysBeforeMonth dt.y dt.m + dt.d

def nextDay (dt : Date) : Date :=
  if dt.d < daysInMonth dt.y dt.m then ⟨dt.y, dt.m, dt.d + 1⟩
  else if dt.m < 12 then ⟨dt.y, dt.m + 1, 1⟩
  else ⟨dt.y + 1, 1, 1⟩

/-- `setDate(getDate() + n)`: day-count advance with ECMAScript overflow
normalization. -/
def addDays (dt : Date) : ℕ → Date
  | 0 => dt
  | n + 1 => nextDay (addDays dt n)

/-- Resolve a possibly overflowing day-of-month the way `MakeDay` does:
a day beyond the end of the month rolls into the following month (for the
inputs arising here, `d ≤ 31`, at most one month of rollover). -/
def resolveDay (y m d : ℕ) : Date :=
  if d ≤ daysInMonth y m then ⟨y, m, d⟩
  else if m < 12 then ⟨y, m + 1, d - daysInMonth y m⟩
  else ⟨y + 1, 1, d - daysInMonth y m⟩

/-- `setMonth(getMonth() + count)`: month-index advance with native
month-rollover semantics for short months. -/
def addMonths (dt : Date) (count : ℕ) : Date :=
  resolveDay (dt.y + ((dt.m - 1) + count) / 12) (((dt.m - 1) + count) % 12 + 1) dt.d

/-- Source `addTime` (`src/unnamed/part_001`, lines 43-63). -/
def addTime (dt : Date) (frequency : Frequency) (count : ℕ) : Date :=
  match frequency with
  | Frequency.DAILY => addDays dt count
  | Frequency.WEEKLY => addDays dt (count * 7)
  | Frequency.BIWEEKLY => addDays dt (count * 15)
  | Frequency.MONTHLY => addMonths dt count

/-- The `while (count < 1200)` loop of `calculateDurationFromDates`,
with the remaining iteration allowance as structural fuel. -/
def durGo (startDate endDate : Date) (frequency : Frequency) : ℕ → ℕ → ℕ
  | 0, count => count
  | fuel + 1, count =>
    if dayNumber endDate < dayNumber (addTime startDate frequency (count + 1)) then count
    else durGo startDate endDate frequency fuel (count + 1)

/-- Source `calculateDurationFromDates` (`src/unnamed/part_001`, lines
65-82), on parsed dates. -/
def calculateDurationFromDates (startDate endDate : Date) (frequency : Frequency) : ℕ :=
  if dayNumber endDate ≤ dayNumber startDate then 1
  else
    let count := durGo startDate endDate frequency 1200 0
    if 0 < count then count else 1

/-! ### Installments and the schedule generator -/

structure Installment where
  number : ℕ
  dueDate : Date
  amount : ℚ
  capital : ℚ
  interest : ℚ
  status : InstallmentStatus
  paymentDate : Option ℕ := none
  deriving DecidableEq

/-- Simple-interest branch of `calculateSchedule` (lines 109-145): the
loop over installments `k, k+1, ...` with `s` iterations left, threading
the mutable `currentRate` as `r`. -/
def simpleAux (amount : ℚ) (interestType : InterestType) (dur : ℕ) (frequency : Frequency)
    (startDate : Date) (vr : ℕ → Option ℚ) : ℚ → ℕ → ℕ → List Installment
  | _, _, 0 => []
  | r, k, s + 1 =>
    let rate := (vr k).getD r
    let interestForPeriod : ℚ :=
      match interestType with
      | InterestType.FIXED_AMOUNT => rate / (dur : ℚ)
      | InterestType.PERCENTAGE => amount * (rate / 100) / (dur : ℚ)
    let capitalPerInstallment : ℚ := amount / (dur : ℚ)
    { number := k
      dueDate := addTime startDate frequency k
      amount := capitalPerInstallment + interestForPeriod
      capital := capitalPerInstallment
      interest := interestForPeriod
      status := InstallmentStatus.PENDING } ::
      simpleAux amount interestType dur frequency startDate vr rate (k + 1) s

/-- The mutable state of the French-amortization loop: the current rate,
the current annuity payment `installmentAmount`, and `remainingCapital`. -/
structure FrenchState where
  rate : ℚ
  pmt : ℚ
  rem : ℚ
  deriving DecidableEq

/-- One iteration of the French loop (lines 157-204).  Returns the
emitted installment, the successor state, and the pre-clamp remaining
capital (used to express when the `< 0.01` clamp fires). -/
def frenchStep (dur : ℕ) (vr : ℕ → Option ℚ) (frequency : Frequency) (startDate : Date)
    (k : ℕ) (st : FrenchState) : Installment × FrenchState × ℚ :=
  let rateChanged := (vr k).isSome
  let rate := (vr k).getD st.rate
  let pmt1 : ℚ :=
    if k = 1 ∨ rateChanged then
      let i := rate / 100
      let remainingTerms := dur - k + 1
      if i = 0 then st.rem / (remainingTerms : ℚ)
      else st.rem * (i * (1 + i) ^ remainingTerms) / ((1 + i) ^ remainingTerms - 1)
    else st.pmt
  let i := rate / 100
  let interestPayment := st.rem * i
  let capitalPayment := if k = dur then st.rem else pmt1 - interestPayment
  let pmtOut := if k = dur then st.rem + interestPayment else pmt1
  let rem1 := st.rem - capitalPayment
  let rem2 := if rem1 < (1 : ℚ) / 100 then 0 else rem1
  (⟨k, addTime startDate frequency k, pmtOut, capitalPayment, interestPayment,
     InstallmentStatus.PENDING, none⟩,
   ⟨rate, pmtOut, rem2⟩, rem1)

/-- French branch of `calculateSchedule`: emits the installments of the
iterations `k, k+1, ...` with `s` iterations left, from state `st`. -/
def frenchAux (dur : ℕ) (vr : ℕ → Option ℚ) (frequency : Frequency) (startDate : Date) :
    ℕ → ℕ → FrenchState → List Installment
  | _, 0, _ => []
  | k, s + 1, st =>
    let r := frenchStep dur vr frequency startDate k st
    r.1 :: frenchAux dur vr frequency startDate (k + 1) s r.2.1

/-- State of the French loop after running iterations `k, ..., k+s-1`. -/
def frenchRun (dur : ℕ) (vr : ℕ → Option ℚ) (frequency : Frequency) (startDate : Date) :
    ℕ → ℕ → FrenchState → FrenchState
  | _, 0, st => st
  | k, s + 1, st =>
    frenchRun dur vr frequency startDate (k + 1) s (frenchStep dur vr frequency startDate k st).2.1

/-- Remaining capital after the first `t` installments of a French loan. -/
def remainingAfter (amount rate0 : ℚ) (frequency : Frequency) (dur : ℕ) (startDate : Date)
    (vr : ℕ → Option ℚ) (t : ℕ) : ℚ :=
  (frenchRun dur vr frequency startDate 1 t ⟨rate0, 0, amount⟩).rem

/-- Decides whether the `remainingCapital < 0.01` clamp stays untriggered
at every non-final iteration of the French loop. -/
def frenchClampFree (dur : ℕ) (vr : ℕ → Option ℚ) (frequency : Frequency) (startDate : Date) :
    ℕ → ℕ → FrenchState → Bool
  | _, 0, _ => true
  | k, s + 1, st =>
    let r := frenchStep dur vr frequency startDate k st
    (k == dur || !(decide (r.2.2 < (1 : ℚ) / 100))) &&
      frenchClampFree dur vr frequency startDate (k + 1) s r.2.1

/-- Source `calculateSchedule` (`src/unnamed/part_001`, lines 93-208).
`vr` is the optional `variableRates` object; an absent argument is the
everywhere-`none` map. -/
def calculateSchedule (amount rate0 : ℚ) (interestType : InterestType) (frequency : Frequency)
    (dur : ℕ) (loanType : LoanType) (startDate : Date) (vr : ℕ → Option ℚ) : List Installment :=
  match loanType, interestType with
  | LoanType.SIMPLE, _ =>
    simpleAux amount interestType dur frequency startDate vr rate0 1 dur
  | LoanType.FRENCH, InterestType.FIXED_AMOUNT =>
    simpleAux amount interestType dur frequency startDate vr rate0 1 dur
  | LoanType.FRENCH, InterestType.PERCENTAGE =>
    frenchAux dur vr frequency startDate 1 dur ⟨rate0, 0, amount⟩

/-! ### Status resolver -/

/-- Source `getInstallmentStatus` (lines 212-223); the wall-clock `new
Date()`, normalized to midnight like the due date, is the explicit
`today`. -/
def getInstallmentStatus (inst : Installment) (today : Date) : InstallmentStatus :=
  if inst.status = InstallmentStatus.PAID then InstallmentStatus.PAID
  else if dayNumber inst.dueDate < dayNumber today then InstallmentStatus.LATE
  else InstallmentStatus.PENDING

/-! ### Loans and the payment ledger -/

structure Loan where
  installments : List Installment
  status : LoanStatus
  totalPayable : ℚ
  totalPaid : ℚ
  deriving DecidableEq

/-- The mutation `loan.installments[installmentIndex].status = 'Pagado';
... .paymentDate = ...` at the `findIndex` position: rewrite the first
element whose `number` matches. -/
def payInstallmentList (n now : ℕ) : List Installment → List Installment
  | [] => []
  | inst :: rest =>
    if inst.number == n then
      { inst with status := InstallmentStatus.PAID, paymentDate := some now } :: rest
    else inst :: payInstallmentList n now rest

/-- `installments.filter(i => i.status === 'Pagado').reduce((acc, curr)
=> acc + curr.amount, 0)`. -/
def paidTotal (l : List Installment) : ℚ :=
  (l.filter (fun i => i.status == InstallmentStatus.PAID)).foldl
    (fun acc curr => acc + curr.amount) 0

/-- Source `StorageService.payInstallment`
(`src/lenderpro/services/storage.ts`, lines 133-170) restricted to the
located loan: the `findIndex` miss returning `null` is `none`; the string
`'Pagado'` is `InstallmentStatus.PAID` for installments and
`LoanStatus.COMPLETED` for the loan. -/
def payInstallment (loan : Loan) (installmentNumber : ℕ) (now : ℕ) : Option Loan :=
  if loan.installments.any (fun i => i.number == installmentNumber) then
    let insts := payInstallmentList installmentNumber now loan.installments
    let allPaid := insts.all (fun i => i.status == InstallmentStatus.PAID)
    some { loan with
      installments := insts
      totalPaid := paidTotal insts
      status := if allPaid then LoanStatus.COMPLETED else loan.status }
  else none

/-! ### Derived quantities used in the claims -/

/-- Sum of the capital portions of a schedule. -/
def capitalSum (l : List Installment) : ℚ :=
  (l.map Installment.capital).sum

/-- Sum of the total amounts of a schedule (the loan's `totalPayable`). -/
def amountSum (l : List Installment) : ℚ :=
  (l.map Installment.amount).sum

/-- The rate in force at installment `i`: the most recent override at or
before `i`, else the initial rate. -/
def activeRate (rate0 : ℚ) (vr : ℕ → Option ℚ) : ℕ → ℚ
  | 0 => rate0
  | i + 1 => (vr (i + 1)).getD (activeRate rate0 vr i)

/-! ## Claim C5: payment against an unknown installment number -/

/-- C5: `applyPayment(loan, n, now)` returns the `NotFound` error value
(`none`) exactly when the loan contains no installment numbered `n`; in
that case no updated loan is produced, so the loan value (installments,
totalPaid, totalPayable, status) is untouched. -/
theorem payInstallment_none_iff (loan : Loan) (n now : ℕ) :
    payInstallment loan n now = none ↔ ∀ i ∈ loan.installments, i.number ≠ n := by
  unfold payInstallment
  cases hc : loan.installments.any (fun i => i.number == n) with
  | true =>
    simp only [hc, if_true]
    simp only [List.any_eq_true, beq_iff_eq] at hc
    obtain ⟨i, hi, hn⟩ := hc
    constructor
    · intro h; exact absurd h (by simp)
    · intro h; exact absurd hn (h i hi)
  | false =>
    simp only [hc, Bool.false_eq_true, if_false, true_iff]
    simp only [List.any_eq_false, beq_iff_eq] at hc
    exact hc

/-! ## Claim C6: durations below 1 -/

/-- C6 counterexample: at `durationInPeriods = 0 < 1` the generator does
not return any error value; it silently produces the zero-length
schedule (its return type, a list of installments, has no error variant
at all). -/
theorem calculateSchedule_zero_duration_empty :
    (0 : ℕ) < 1 ∧
    calculateSchedule 100 10 InterestType.PERCENTAGE Frequency.MONTHLY 0 LoanType.SIMPLE
      ⟨2024, 1, 1⟩ (fun _ => none) = [] := by
  exact ⟨Nat.zero_lt_one, rfl⟩

/-- C6 amended: for every input with `durationInPeriods < 1` the
generator silently returns the empty schedule (no error value is
produced and nothing is thrown). -/
theorem calculateSchedule_empty_of_duration_lt_one (amount rate0 : ℚ)
    (interestType : InterestType) (frequency : Frequency) (dur : ℕ) (loanType : LoanType)
    (startDate : Date) (vr : ℕ → Option ℚ) (hdur : dur < 1) :
    calculateSchedule amount rate0 interestType frequency dur loanType startDate vr = [] := by
  interval_cases dur
  cases loanType <;> cases interestType <;> rfl

/-- C6 amended witness: the amended statement at a concrete input. -/
theorem calculateSchedule_empty_of_duration_lt_one_witness :
    calculateSchedule 100 10 InterestType.FIXED_AMOUNT Frequency.WEEKLY 0 LoanType.FRENCH
      ⟨2024, 1, 1⟩ (fun _ => none) = [] :=
  calculateSchedule_empty_of_duration_lt_one 100 10 InterestType.FIXED_AMOUNT Frequency.WEEKLY 0
    LoanType.FRENCH ⟨2024, 1, 1⟩ (fun _ => none) Nat.zero_lt_one

/-! ## Claim C9: effective display status -/

/-- C9: `effectiveStatus` returns Paid whenever the recorded status is
Paid, regardless of the due date; otherwise it returns Late exactly when
`today` (date-only, normalized) is strictly after the due date
(date-only, normalized), and Pending otherwise. -/
theorem getInstallmentStatus_spec (inst : Installment) (today : Date) :
    (inst.status = InstallmentStatus.PAID →
      getInstallmentStatus inst today = InstallmentStatus.PAID) ∧
    (inst.status ≠ InstallmentStatus.PAID →
      ((getInstallmentStatus inst today = InstallmentStatus.LATE ↔
          dayNumber inst.dueDate < dayNumber today) ∧
       (getInstallmentStatus inst today = InstallmentStatus.PENDING ↔
          ¬ dayNumber inst.dueDate < dayNumber today))) := by
  unfold getInstallmentStatus
  split_ifs with h1 h2 <;> simp_all

/-- C9 witness: a pending installment due 2024-01-10 viewed on
2024-01-11 is Late. -/
theorem getInstallmentStatus_spec_witness :
    getInstallmentStatus ⟨1, ⟨2024, 1, 10⟩, 110, 100, 10, InstallmentStatus.PENDING, none⟩
      ⟨2024, 1, 11⟩ = InstallmentStatus.LATE :=
  ((getInstallmentStatus_spec
      ⟨1, ⟨2024, 1, 10⟩, 110, 100, 10, InstallmentStatus.PENDING, none⟩
      ⟨2024, 1, 11⟩).2 (by decide)).1.mpr (by decide)

/-! ## Claim C7, counterexample part: monthly stepping is not associative
on month-end dates -/

/-- C7 counterexample: from the valid date 2023-01-31 with `n = 2` in
`[1, 24]`, advancing by one month twice gives 2023-04-03 while advancing
by two months at once gives 2023-03-31: the compositions differ. -/
theorem addTime_monthly_not_associative :
    Date.Valid ⟨2023, 1, 31⟩ ∧ 1 ≤ 2 ∧ 2 ≤ 24 ∧
    addTime (addTime ⟨2023, 1, 31⟩ Frequency.MONTHLY 1) Frequency.MONTHLY 1 ≠
      addTime ⟨2023, 1, 31⟩ Frequency.MONTHLY 2 := by
  decide

/-! ## Claim C1, counterexample part: the French capital sum can drift
arbitrarily far from the principal once the epsilon clamp fires early -/

/-- C1 counterexample: a valid parameter set (principal `9/1000 > 0`,
duration `3 ≥ 1`, per-period rate `10000` percent, no overrides) whose
French schedule has the clamp fire after installment one; the capital
portions then sum to about `0.9`, missing the principal by far more than
a cent. -/
theorem french_capitalSum_not_within_cent :
    (0 : ℚ) < 9 / 1000 ∧ (1 : ℕ) ≤ 3 ∧
    capitalSum (calculateSchedule (9 / 1000) 10000 InterestType.PERCENTAGE Frequency.MONTHLY 3
        LoanType.FRENCH ⟨2024, 1, 1⟩ (fun _ => none)) - 9 / 1000 > 1 / 100 := by
  refine ⟨by norm_num, by norm_num, ?_⟩
  norm_num [calculateSchedule, frenchAux, frenchStep, capitalSum, addTime, addMonths, resolveDay,
    daysInMonth, isLeap]

/-! ## Claim C10, counterexample part: re-payment is not a pure
paymentDate overwrite on every loan -/

/-- C10 counterexample: a loan whose single installment (number 1) is
already Paid but whose aggregates are stale (`totalPaid = 0`, status
Active): re-applying the payment recomputes `totalPaid` to `110 ≠ 0` and
flips the loan status to Completed, so fields other than the payment
date do change. -/
theorem payInstallment_repay_changes_aggregates :
    (payInstallment
        ⟨[⟨1, ⟨2024, 2, 1⟩, 110, 100, 10, InstallmentStatus.PAID, some 5⟩],
          LoanStatus.ACTIVE, 110, 0⟩ 1 7).map (fun l => (l.totalPaid, l.status)) =
      some (110, LoanStatus.COMPLETED) ∧
    (110 : ℚ) ≠ 0 ∧ LoanStatus.COMPLETED ≠ LoanStatus.ACTIVE := by
  refine ⟨?_, by norm_num, by decide⟩
  simp only [payInstallment, payInstallmentList, paidTotal, List.any_cons, List.any_nil,
    List.all_cons, List.all_nil, List.filter, List.foldl]
  norm_num

/-! ## Calendar lemmas -/

lemma daysInMonth_ge_28 (y m : ℕ) : 28 ≤ daysInMonth y m := by
  unfold daysInMonth
  split_ifs <;> norm_num

lemma daysInMonth_le_31 (y m : ℕ) : daysInMonth y m ≤ 31 := by
  unfold daysInMonth
  split_ifs <;> norm_num

lemma daysInMonth_12 (y : ℕ) : daysInMonth y 12 = 31 := by
  norm_num [daysInMonth]

lemma daysBeforeMonth_succ (y m : ℕ) (h : 1 ≤ m) :
    daysBeforeMonth y (m + 1) = daysBeforeMonth y m + daysInMonth y m := by
  obtain ⟨k, rfl⟩ : ∃ k, m = k + 1 := ⟨m - 1, by omega⟩
  rfl

lemma leapsBefore_succ (y : ℕ) (hy : 1 ≤ y) :
    leapsBefore (y + 1) = leapsBefore y + (if isLeap y then 1 else 0) := by
  obtain ⟨x, rfl⟩ : ∃ x, y = x + 1 := ⟨y - 1, by omega⟩
  have hle : x / 100 ≤ x / 4 := Nat.div_le_div_left (by norm_num) (by norm_num)
  unfold leapsBefore
  simp only [Nat.add_sub_cancel, Nat.succ_div]
  by_cases hl : isLeap (x + 1) = true
  · rw [if_pos hl]
    simp only [isLeap, Bool.or_eq_true, Bool.and_eq_true, beq_iff_eq, bne_iff_ne] at hl
    split_ifs <;> omega
  · rw [if_neg hl]
    simp only [isLeap, Bool.or_eq_true, Bool.and_eq_true, beq_iff_eq, bne_iff_ne, not_or,
      not_and_or, not_not] at hl
    split_ifs <;> omega

lemma daysBeforeMonth_12 (y : ℕ) :
    daysBeforeMonth y 12 + daysInMonth y 12 = 365 + (if isLeap y then 1 else 0) := by
  cases hl : isLeap y <;> simp [daysBeforeMonth, daysInMonth, hl]

lemma nextDay_valid (dt : Date) (h : dt.Valid) : (nextDay dt).Valid := by
  obtain ⟨hy, hm1, hm2, hd1, hd2⟩ := h
  have h28a := daysInMonth_ge_28 dt.y (dt.m + 1)
  have h28b := daysInMonth_ge_28 (dt.y + 1) 1
  unfold nextDay Date.Valid
  split_ifs with h1 h2 <;> dsimp only <;> omega

lemma dayNumber_nextDay (dt : Date) (h : dt.Valid) :
    dayNumber (nextDay dt) = dayNumber dt + 1 := by
  obtain ⟨hy, hm1, hm2, hd1, hd2⟩ := h
  unfold nextDay
  split_ifs with h1 h2
  · simp only [dayNumber]
    omega
  · have hd : dt.d = daysInMonth dt.y dt.m := le_antisymm hd2 (not_lt.mp h1)
    have hstep := daysBeforeMonth_succ dt.y dt.m hm1
    simp only [dayNumber, hstep]
    omega
  · have hm : dt.m = 12 := le_antisymm hm2 (not_lt.mp h2)
    have hd : dt.d = daysInMonth dt.y 12 := by rw [← hm]; exact le_antisymm hd2 (not_lt.mp h1)
    have h12 := daysBeforeMonth_12 dt.y
    have hls := leapsBefore_succ dt.y hy
    simp only [dayNumber, hm, hd]
    simp only [show daysBeforeMonth (dt.y + 1) 1 = 0 from rfl]
    cases isLeap dt.y <;> simp_all <;> omega

lemma addDays_valid (dt : Date) (h : dt.Valid) (n : ℕ) : (addDays dt n).Valid := by
  induction n with
  | zero => exact h
  | succ n ih => exact nextDay_valid _ ih

lemma dayNumber_addDays (dt : Date) (h : dt.Valid) (n : ℕ) :
    dayNumber (addDays dt n) = dayNumber dt + n := by
  induction n with
  | zero => rfl
  | succ n ih =>
    show dayNumber (nextDay (addDays dt n)) = _
    rw [dayNumber_nextDay _ (addDays_valid dt h n), ih]
    omega

/-- Linear month index of the first day of a month: `monthStart M` is the
day ordinal of the first day of the `M`-th month counting from month 0 =
January of year 1. -/
def monthStart (M : ℕ) : ℕ := dayNumber ⟨M / 12 + 1, M % 12 + 1, 1⟩

lemma monthStart_succ (M : ℕ) :
    monthStart (M + 1) = monthStart M + daysInMonth (M / 12 + 1) (M % 12 + 1) := by
  by_cases hM : M % 12 = 11
  · have h1 : (M + 1) / 12 = M / 12 + 1 := by omega
    have h2 : (M + 1) % 12 = 0 := by omega
    have h12 := daysBeforeMonth_12 (M / 12 + 1)
    have hls := leapsBefore_succ (M / 12 + 1) (by omega)
    simp only [monthStart, h1, h2, hM, dayNumber]
    simp only [show daysBeforeMonth (M / 12 + 1 + 1) (0 + 1) = 0 from rfl]
    cases isLeap (M / 12 + 1) <;> simp_all <;> omega
  · have h1 : (M + 1) / 12 = M / 12 := by omega
    have h2 : (M + 1) % 12 = M % 12 + 1 := by omega
    have hstep := daysBeforeMonth_succ (M / 12 + 1) (M % 12 + 1) (by omega)
    simp only [monthStart, h1, h2, dayNumber, hstep]
    omega

lemma monthStart_lt (a b : ℕ) (h : a < b) : monthStart a < monthStart b := by
  induction b with
  | zero => omega
  | succ b ih =>
    have hge := daysInMonth_ge_28 (b / 12 + 1) (b % 12 + 1)
    rcases Nat.lt_succ_iff_lt_or_eq.mp h with h' | rfl
    · have := ih h'
      rw [monthStart_succ]
      omega
    · rw [monthStart_succ]
      omega

lemma dayNumber_resolveDay (y m d : ℕ) (hm1 : 1 ≤ m) (hm2 : m ≤ 12) (hd1 : 1 ≤ d)
    (hd2 : d ≤ 31) :
    dayNumber (resolveDay y m d) = dayNumber ⟨y, m, 1⟩ + (d - 1) := by
  unfold resolveDay
  split_ifs with h1 h2
  · simp only [dayNumber]; omega
  · have hstep := daysBeforeMonth_succ y m hm1
    simp only [dayNumber, hstep]
    omega
  · have hm : m = 12 := by omega
    have : d ≤ daysInMonth y m := by rw [hm, daysInMonth_12]; exact hd2
    omega

lemma dayNumber_addMonths (dt : Date) (h : dt.Valid) (c : ℕ) :
    dayNumber (addMonths dt c) =
      monthStart (12 * (dt.y - 1) + (dt.m - 1) + c) + (dt.d - 1) := by
  obtain ⟨hy, hm1, hm2, hd1, hd2⟩ := h
  have hd31 : dt.d ≤ 31 := le_trans hd2 (daysInMonth_le_31 _ _)
  unfold addMonths
  rw [dayNumber_resolveDay _ _ _ (by omega) (by omega) hd1 hd31]
  have hM1 : (12 * (dt.y - 1) + (dt.m - 1) + c) / 12 + 1 = dt.y + ((dt.m - 1) + c) / 12 := by
    omega
  have hM2 : (12 * (dt.y - 1) + (dt.m - 1) + c) % 12 = ((dt.m - 1) + c) % 12 := by omega
  rw [monthStart, hM1, hM2]

lemma dayNumber_eq_monthStart (dt : Date) (h : dt.Valid) :
    dayNumber dt = monthStart (12 * (dt.y - 1) + (dt.m - 1)) + (dt.d - 1) := by
  obtain ⟨hy, hm1, hm2, hd1, hd2⟩ := h
  have hM1 : (12 * (dt.y - 1) + (dt.m - 1)) / 12 + 1 = dt.y := by omega
  have hM2 : (12 * (dt.y - 1) + (dt.m - 1)) % 12 + 1 = dt.m := by omega
  simp only [monthStart, hM1, hM2, dayNumber]
  omega

lemma addTime_zero (dt : Date) (h : dt.Valid) (f : Frequency) : addTime dt f 0 = dt := by
  obtain ⟨hy, hm1, hm2, hd1, hd2⟩ := h
  cases f
  · rfl
  · rfl
  · rfl
  · show addMonths dt 0 = dt
    unfold addMonths resolveDay
    have h1 : ((dt.m - 1) + 0) / 12 = 0 := by omega
    have h2 : ((dt.m - 1) + 0) % 12 + 1 = dt.m := by omega
    rw [h1, h2]
    simp only [Nat.add_zero]
    rw [if_pos hd2]

lemma dayNumber_addTime_lt (dt : Date) (h : dt.Valid) (f : Frequency) (a b : ℕ) (hab : a < b) :
    dayNumber (addTime dt f a) < dayNumber (addTime dt f b) := by
  cases f
  · show dayNumber (addDays dt a) < dayNumber (addDays dt b)
    rw [dayNumber_addDays dt h, dayNumber_addDays dt h]
    omega
  · show dayNumber (addDays dt (a * 7)) < dayNumber (addDays dt (b * 7))
    rw [dayNumber_addDays dt h, dayNumber_addDays dt h]
    omega
  · show dayNumber (addDays dt (a * 15)) < dayNumber (addDays dt (b * 15))
    rw [dayNumber_addDays dt h, dayNumber_addDays dt h]
    omega
  · show dayNumber (addMonths dt a) < dayNumber (addMonths dt b)
    rw [dayNumber_addMonths dt h, dayNumber_addMonths dt h]
    have := monthStart_lt (12 * (dt.y - 1) + (dt.m - 1) + a) (12 * (dt.y - 1) + (dt.m - 1) + b)
      (by omega)
    omega

/-! ## Claim C7, amended part: monthly stepping is associative away from
month-end days -/

/-- `advance(d, Monthly, 1)` composed `n` times. -/
def addMonthlyIter (dt : Date) : ℕ → Date
  | 0 => dt
  | n + 1 => addTime (addMonthlyIter dt n) Frequency.MONTHLY 1

lemma addMonths_small_day (dt : Date) (hd : dt.d ≤ 28) (c : ℕ) :
    addMonths dt c = ⟨dt.y + ((dt.m - 1) + c) / 12, ((dt.m - 1) + c) % 12 + 1, dt.d⟩ := by
  unfold addMonths resolveDay
  rw [if_pos (le_trans hd (daysInMonth_ge_28 _ _))]

/-- C7 amended: for every valid date whose day-of-month is at most 28
(so that no native month-rollover for short months can occur), and every
`n` in `[1, 24]`, advancing by one month `n` times equals one call
advancing by `n` months. -/
theorem addTime_monthly_iter_eq (dt : Date) (hv : dt.Valid) (hd : dt.d ≤ 28) (n : ℕ)
    (hn1 : 1 ≤ n) (hn2 : n ≤ 24) :
    addMonthlyIter dt n = addTime dt Frequency.MONTHLY n := by
  obtain ⟨hy, hm1, hm2, hd1, _⟩ := hv
  have key : ∀ k, addMonthlyIter dt k = addMonths dt k := by
    intro k
    induction k with
    | zero =>
      show dt = addMonths dt 0
      rw [addMonths_small_day dt hd 0]
      have e1 : ((dt.m - 1) + 0) / 12 = 0 := by omega
      have e2 : ((dt.m - 1) + 0) % 12 + 1 = dt.m := by omega
      rw [e1, e2]
      simp
    | succ k ih =>
      show addTime (addMonthlyIter dt k) Frequency.MONTHLY 1 = addMonths dt (k + 1)
      rw [ih]
      show addMonths (addMonths dt k) 1 = addMonths dt (k + 1)
      rw [addMonths_small_day dt hd k, addMonths_small_day dt hd (k + 1)]
      rw [addMonths_small_day ⟨dt.y + ((dt.m - 1) + k) / 12, ((dt.m - 1) + k) % 12 + 1, dt.d⟩
        hd 1]
      dsimp only
      simp only [Date.mk.injEq]
      refine ⟨by omega, by omega, trivial⟩
  exact key n

/-- C7 amended witness: iterating from 2024-01-15 twice agrees with a
single two-month advance. -/
theorem addTime_monthly_iter_eq_witness :
    addMonthlyIter ⟨2024, 1, 15⟩ 2 = addTime ⟨2024, 1, 15⟩ Frequency.MONTHLY 2 :=
  addTime_monthly_iter_eq ⟨2024, 1, 15⟩ (by decide) (by decide) 2 (by decide) (by decide)

/-! ## Claim C8: round trip between period counting and advancing -/

lemma durGo_spec (startDate endDate : Date) (f : Frequency) (n : ℕ)
    (hle : ∀ c, 1 ≤ c → c ≤ n → dayNumber (addTime startDate f c) ≤ dayNumber endDate)
    (hgt : dayNumber endDate < dayNumber (addTime startDate f (n + 1))) :
    ∀ fuel c, c ≤ n → n < c + fuel → durGo startDate endDate f fuel c = n := by
  intro fuel
  induction fuel with
  | zero => intro c hc1 hc2; omega
  | succ fuel ih =>
    intro c hc1 hc2
    unfold durGo
    by_cases hc : c = n
    · subst hc
      rw [if_pos hgt]
    · rw [if_neg (not_lt.mpr (hle (c + 1) (by omega) (by omega)))]
      exact ih (c + 1) (by omega) (by omega)

/-- C8: for every valid start date, every frequency, and every `n` in
`[1, 36]`, counting the periods from the start to `advance(start, f, n)`
gives back exactly `n`. -/
theorem calculateDurationFromDates_roundtrip (startDate : Date) (hv : startDate.Valid)
    (f : Frequency) (n : ℕ) (hn1 : 1 ≤ n) (hn2 : n ≤ 36) :
    calculateDurationFromDates startDate (addTime startDate f n) f = n := by
  have hmono := dayNumber_addTime_lt startDate hv f
  have hstart : dayNumber startDate < dayNumber (addTime startDate f n) := by
    have h0 := hmono 0 n (by omega)
    rwa [addTime_zero startDate hv f] at h0
  have hle : ∀ c, 1 ≤ c → c ≤ n →
      dayNumber (addTime startDate f c) ≤ dayNumber (addTime startDate f n) := by
    intro c hc1 hc2
    rcases eq_or_lt_of_le hc2 with rfl | hlt
    · exact le_refl _
    · exact le_of_lt (hmono c n hlt)
  have hgo := durGo_spec startDate (addTime startDate f n) f n hle (hmono n (n + 1) (by omega))
    1200 0 (by omega) (by omega)
  unfold calculateDurationFromDates
  rw [if_neg (not_le.mpr hstart)]
  dsimp only
  rw [hgo, if_pos (by omega)]

/-- C8 witness: for the month-end start 2024-01-31 and Monthly frequency,
advancing 13 periods and counting back yields 13. -/
theorem calculateDurationFromDates_roundtrip_witness :
    calculateDurationFromDates ⟨2024, 1, 31⟩ (addTime ⟨2024, 1, 31⟩ Frequency.MONTHLY 13)
      Frequency.MONTHLY = 13 :=
  calculateDurationFromDates_roundtrip ⟨2024, 1, 31⟩ (by decide) Frequency.MONTHLY 13
    (by decide) (by decide)

/-! ## Simple-schedule lemmas -/

/-- Interest of one simple-method installment, given the rate in force. -/
def simpleInterestAt (amount rate : ℚ) (interestType : InterestType) (dur : ℕ) : ℚ :=
  match interestType with
  | InterestType.FIXED_AMOUNT => rate / (dur : ℚ)
  | InterestType.PERCENTAGE => amount * (rate / 100) / (dur : ℚ)

/-- The rate the simple loop uses at step `k + j` after entering step `k`
with carried rate `r`. -/
def rateFrom (vr : ℕ → Option ℚ) (r : ℚ) (k : ℕ) : ℕ → ℚ
  | 0 => (vr k).getD r
  | j + 1 => (vr (k + j + 1)).getD (rateFrom vr r k j)

lemma rateFrom_shift (vr : ℕ → Option ℚ) (r : ℚ) (k : ℕ) :
    ∀ j, rateFrom vr ((vr k).getD r) (k + 1) j = rateFrom vr r k (j + 1)
  | 0 => by
    have h : k + 0 + 1 = k + 1 := by omega
    simp only [rateFrom, h]
  | j + 1 => by
    have h : k + 1 + j + 1 = k + (j + 1) + 1 := by omega
    simp only [rateFrom, rateFrom_shift vr r k j, h]

lemma activeRate_eq_rateFrom (rate0 : ℚ) (vr : ℕ → Option ℚ) :
    ∀ j, rateFrom vr rate0 1 j = activeRate rate0 vr (j + 1)
  | 0 => by simp [rateFrom, activeRate]
  | j + 1 => by
    have h : 1 + j + 1 = j + 1 + 1 := by omega
    simp only [rateFrom, activeRate, activeRate_eq_rateFrom rate0 vr j, h]

lemma simpleAux_getElem (amount : ℚ) (it : InterestType) (dur : ℕ) (f : Frequency)
    (startDate : Date) (vr : ℕ → Option ℚ) :
    ∀ s r k j, j < s →
      (simpleAux amount it dur f startDate vr r k s)[j]? =
        some { number := k + j, dueDate := addTime startDate f (k + j),
               amount := amount / (dur : ℚ) + simpleInterestAt amount (rateFrom vr r k j) it dur,
               capital := amount / (dur : ℚ),
               interest := simpleInterestAt amount (rateFrom vr r k j) it dur,
               status := InstallmentStatus.PENDING, paymentDate := none } := by
  intro s
  induction s with
  | zero => intro r k j hj; omega
  | succ s ih =>
    intro r k j hj
    cases j with
    | zero =>
      simp only [simpleAux, List.getElem?_cons_zero, Nat.add_zero, Option.some.injEq]
      cases it <;> simp [rateFrom, simpleInterestAt]
    | succ j =>
      have h1 : k + 1 + j = k + (j + 1) := by omega
      simp only [simpleAux, List.getElem?_cons_succ]
      rw [ih ((vr k).getD r) (k + 1) j (by omega)]
      rw [rateFrom_shift, h1]

lemma capitalSum_nil : capitalSum [] = 0 := rfl

lemma capitalSum_cons (x : Installment) (l : List Installment) :
    capitalSum (x :: l) = x.capital + capitalSum l := by
  simp [capitalSum]

lemma simpleAux_capitalSum (amount : ℚ) (it : InterestType) (dur : ℕ) (f : Frequency)
    (startDate : Date) (vr : ℕ → Option ℚ) :
    ∀ s r k, capitalSum (simpleAux amount it dur f startDate vr r k s) =
      (s : ℚ) * (amount / (dur : ℚ)) := by
  intro s
  induction s with
  | zero => intro r k; simp [simpleAux, capitalSum]
  | succ s ih =>
    intro r k
    simp only [simpleAux, capitalSum_cons, ih]
    push_cast
    ring

/-! ## Claim C4: the Simple method installment formulas -/

/-- C4: every simple-method installment `idx + 1` has capital exactly
`principal / duration` (constant, unaffected by overrides), interest
`activeRate / duration` in FixedAmount mode and
`principal * activeRate / 100 / duration` in Percentage mode, where
`activeRate` is the most recent override at or before the installment
(else the initial rate); and in the concrete scenario principal 1200,
FixedAmount 120, Monthly, duration 12, every installment is
10 interest / 100 capital / 110 total with 1320 payable in all. -/
theorem simple_schedule_spec :
    (∀ (amount rate0 : ℚ) (it : InterestType) (f : Frequency) (dur : ℕ) (startDate : Date)
        (vr : ℕ → Option ℚ) (idx : ℕ), idx < dur →
      (calculateSchedule amount rate0 it f dur LoanType.SIMPLE startDate vr)[idx]? =
        some { number := idx + 1, dueDate := addTime startDate f (idx + 1),
               amount := amount / (dur : ℚ) +
                 simpleInterestAt amount (activeRate rate0 vr (idx + 1)) it dur,
               capital := amount / (dur : ℚ),
               interest := simpleInterestAt amount (activeRate rate0 vr (idx + 1)) it dur,
               status := InstallmentStatus.PENDING, paymentDate := none }) ∧
    (∀ inst ∈ calculateSchedule 1200 120 InterestType.FIXED_AMOUNT Frequency.MONTHLY 12
        LoanType.SIMPLE ⟨2024, 1, 1⟩ (fun _ => none),
      inst.interest = 10 ∧ inst.capital = 100 ∧ inst.amount = 110) ∧
    amountSum (calculateSchedule 1200 120 InterestType.FIXED_AMOUNT Frequency.MONTHLY 12
        LoanType.SIMPLE ⟨2024, 1, 1⟩ (fun _ => none)) = 1320 := by
  refine ⟨?_, ?_, ?_⟩
  · intro amount rate0 it f dur startDate vr idx hidx
    show (simpleAux amount it dur f startDate vr rate0 1 dur)[idx]? = _
    rw [simpleAux_getElem amount it dur f startDate vr dur rate0 1 idx hidx]
    rw [activeRate_eq_rateFrom]
    have h : 1 + idx = idx + 1 := by omega
    rw [h]
  · intro inst hinst
    simp only [calculateSchedule, simpleAux, List.mem_cons, List.not_mem_nil, or_false] at hinst
    rcases hinst with h | h | h | h | h | h | h | h | h | h | h | h <;> subst h <;>
      refine ⟨by norm_num, by norm_num, by norm_num⟩
  · simp only [calculateSchedule, simpleAux, amountSum, List.map_cons, List.map_nil,
      List.sum_cons, List.sum_nil]
    norm_num

/-- C4 witness: the general clause instantiated at the concrete scenario,
installment 1. -/
theorem simple_schedule_spec_witness :
    (calculateSchedule 1200 120 InterestType.FIXED_AMOUNT Frequency.MONTHLY 12 LoanType.SIMPLE
        ⟨2024, 1, 1⟩ (fun _ => none))[0]? =
      some { number := 1, dueDate := addTime ⟨2024, 1, 1⟩ Frequency.MONTHLY 1,
             amount := 1200 / (12 : ℚ) +
               simpleInterestAt 1200 (activeRate 120 (fun _ => none) 1)
                 InterestType.FIXED_AMOUNT 12,
             capital := 1200 / (12 : ℚ),
             interest := simpleInterestAt 1200 (activeRate 120 (fun _ => none) 1)
               InterestType.FIXED_AMOUNT 12,
             status := InstallmentStatus.PENDING, paymentDate := none } :=
  simple_schedule_spec.1 1200 120 InterestType.FIXED_AMOUNT Frequency.MONTHLY 12 ⟨2024, 1, 1⟩
    (fun _ => none) 0 (by norm_num)

/-! ## French-schedule lemmas -/

lemma frenchStep_capital_final (dur : ℕ) (vr : ℕ → Option ℚ) (f : Frequency) (startDate : Date)
    (k : ℕ) (st : FrenchState) (h : k = dur) :
    (frenchStep dur vr f startDate k st).1.capital = st.rem := by
  simp [frenchStep, h]

lemma frenchStep_rem_final (dur : ℕ) (vr : ℕ → Option ℚ) (f : Frequency) (startDate : Date)
    (k : ℕ) (st : FrenchState) (h : k = dur) :
    (frenchStep dur vr f startDate k st).2.1.rem = 0 := by
  simp only [frenchStep, h, if_pos rfl, sub_self]
  norm_num

lemma frenchStep_preRem (dur : ℕ) (vr : ℕ → Option ℚ) (f : Frequency) (startDate : Date)
    (k : ℕ) (st : FrenchState) :
    (frenchStep dur vr f startDate k st).2.2 =
      st.rem - (frenchStep dur vr f startDate k st).1.capital := rfl

lemma frenchStep_rem_eq (dur : ℕ) (vr : ℕ → Option ℚ) (f : Frequency) (startDate : Date)
    (k : ℕ) (st : FrenchState) :
    (frenchStep dur vr f startDate k st).2.1.rem =
      if (frenchStep dur vr f startDate k st).2.2 < (1 : ℚ) / 100 then 0
      else (frenchStep dur vr f startDate k st).2.2 := rfl

lemma frenchAux_capitalSum (dur : ℕ) (vr : ℕ → Option ℚ) (f : Frequency) (startDate : Date) :
    ∀ s k st, k + s = dur →
      frenchClampFree dur vr f startDate k (s + 1) st = true →
      capitalSum (frenchAux dur vr f startDate k (s + 1) st) = st.rem := by
  intro s
  induction s with
  | zero =>
    intro k st hk _
    have hfin : k = dur := by omega
    show capitalSum ((frenchStep dur vr f startDate k st).1 ::
      frenchAux dur vr f startDate (k + 1) 0 (frenchStep dur vr f startDate k st).2.1) = st.rem
    rw [capitalSum_cons, frenchStep_capital_final dur vr f startDate k st hfin]
    show st.rem + capitalSum [] = st.rem
    rw [capitalSum_nil, add_zero]
  | succ s ih =>
    intro k st hk hcf
    have hne : k ≠ dur := by omega
    have hcf1 : frenchClampFree dur vr f startDate k (s + 1 + 1) st = true := hcf
    rw [show frenchClampFree dur vr f startDate k (s + 1 + 1) st =
        ((k == dur || !(decide ((frenchStep dur vr f startDate k st).2.2 < (1 : ℚ) / 100))) &&
          frenchClampFree dur vr f startDate (k + 1) (s + 1)
            (frenchStep dur vr f startDate k st).2.1) from rfl] at hcf1
    rw [Bool.and_eq_true, Bool.or_eq_true] at hcf1
    obtain ⟨hor, hrest⟩ := hcf1
    have hnoclamp : ¬ (frenchStep dur vr f startDate k st).2.2 < (1 : ℚ) / 100 := by
      rcases hor with hor | hor
      · exact absurd (by simpa using hor) hne
      · simp only [Bool.not_eq_true', decide_eq_false_iff_not] at hor
        exact hor
    show capitalSum ((frenchStep dur vr f startDate k st).1 ::
      frenchAux dur vr f startDate (k + 1) (s + 1) (frenchStep dur vr f startDate k st).2.1) =
      st.rem
    rw [capitalSum_cons, ih (k + 1) (frenchStep dur vr f startDate k st).2.1 (by omega) hrest]
    rw [frenchStep_rem_eq, if_neg hnoclamp, frenchStep_preRem]
    ring

lemma frenchRun_rem_zero (dur : ℕ) (vr : ℕ → Option ℚ) (f : Frequency) (startDate : Date) :
    ∀ s k st, k + s = dur → (frenchRun dur vr f startDate k (s + 1) st).rem = 0 := by
  intro s
  induction s with
  | zero =>
    intro k st hk
    show (frenchRun dur vr f startDate (k + 1) 0 (frenchStep dur vr f startDate k st).2.1).rem = 0
    exact frenchStep_rem_final dur vr f startDate k st (by omega)
  | succ s ih =>
    intro k st hk
    exact ih (k + 1) (frenchStep dur vr f startDate k st).2.1 (by omega)

/-! ## Claim C1, amended part: capital telescoping -/

/-- C1 amended: for principal > 0 and duration >= 1, the capital portions
of a Simple schedule sum to exactly the principal; those of a French
(Percentage) schedule sum to exactly the principal whenever the 0.01
epsilon clamp does not fire before the final installment; and for the
French method with no rate overrides the remaining capital after the
final installment is exactly 0 (post-clamp). -/
theorem capitalSum_spec_amended :
    (∀ (amount rate0 : ℚ) (it : InterestType) (f : Frequency) (dur : ℕ) (startDate : Date)
        (vr : ℕ → Option ℚ), 0 < amount → 1 ≤ dur →
      capitalSum (calculateSchedule amount rate0 it f dur LoanType.SIMPLE startDate vr) =
        amount) ∧
    (∀ (amount rate0 : ℚ) (f : Frequency) (dur : ℕ) (startDate : Date) (vr : ℕ → Option ℚ),
        0 < amount → 1 ≤ dur →
      frenchClampFree dur vr f startDate 1 dur ⟨rate0, 0, amount⟩ = true →
      capitalSum (calculateSchedule amount rate0 InterestType.PERCENTAGE f dur LoanType.FRENCH
        startDate vr) = amount) ∧
    (∀ (amount rate0 : ℚ) (f : Frequency) (dur : ℕ) (startDate : Date), 0 < amount → 1 ≤ dur →
      remainingAfter amount rate0 f dur startDate (fun _ => none) dur = 0) := by
  refine ⟨?_, ?_, ?_⟩
  · intro amount rate0 it f dur startDate vr _ hdur
    show capitalSum (simpleAux amount it dur f startDate vr rate0 1 dur) = amount
    rw [simpleAux_capitalSum]
    have hd0 : (dur : ℚ) ≠ 0 := Nat.cast_ne_zero.mpr (by omega)
    rw [mul_comm, div_mul_cancel₀ amount hd0]
  · intro amount rate0 f dur startDate vr _ hdur hcf
    obtain ⟨s, rfl⟩ : ∃ s, dur = s + 1 := ⟨dur - 1, by omega⟩
    show capitalSum (frenchAux (s + 1) vr f startDate 1 (s + 1) ⟨rate0, 0, amount⟩) = amount
    exact frenchAux_capitalSum (s + 1) vr f startDate s 1 ⟨rate0, 0, amount⟩ (by omega) hcf
  · intro amount rate0 f dur startDate _ hdur
    obtain ⟨s, rfl⟩ : ∃ s, dur = s + 1 := ⟨dur - 1, by omega⟩
    exact frenchRun_rem_zero (s + 1) (fun _ => none) f startDate s 1 ⟨rate0, 0, amount⟩
      (by omega)

/-- C1 amended witness: the Simple clause at the concrete 1200/120/12
scenario. -/
theorem capitalSum_spec_amended_witness :
    capitalSum (calculateSchedule 1200 120 InterestType.FIXED_AMOUNT Frequency.MONTHLY 12
      LoanType.SIMPLE ⟨2024, 1, 1⟩ (fun _ => none)) = 1200 :=
  capitalSum_spec_amended.1 1200 120 InterestType.FIXED_AMOUNT Frequency.MONTHLY 12 ⟨2024, 1, 1⟩
    (fun _ => none) (by norm_num) (by norm_num)

/-! ## Claim C2: rate overrides in French mode -/

lemma frenchStep_congr (dur : ℕ) (vr1 vr2 : ℕ → Option ℚ) (f : Frequency) (startDate : Date)
    (k : ℕ) (st : FrenchState) (h : vr1 k = vr2 k) :
    frenchStep dur vr1 f startDate k st = frenchStep dur vr2 f startDate k st := by
  simp only [frenchStep, h]

lemma frenchAux_congr_prefix (dur : ℕ) (vr1 vr2 : ℕ → Option ℚ) (f : Frequency)
    (startDate : Date) :
    ∀ j s k st, j < s → (∀ t, k ≤ t → t ≤ k + j → vr1 t = vr2 t) →
      (frenchAux dur vr1 f startDate k s st)[j]? =
        (frenchAux dur vr2 f startDate k s st)[j]? := by
  intro j
  induction j with
  | zero =>
    intro s k st hj hagree
    obtain ⟨n, rfl⟩ : ∃ n, s = n + 1 := ⟨s - 1, by omega⟩
    show ((frenchStep dur vr1 f startDate k st).1 :: _)[0]? =
      ((frenchStep dur vr2 f startDate k st).1 :: _)[0]?
    simp only [List.getElem?_cons_zero]
    rw [frenchStep_congr dur vr1 vr2 f startDate k st (hagree k le_rfl (by omega))]
  | succ j ih =>
    intro s k st hj hagree
    obtain ⟨n, rfl⟩ : ∃ n, s = n + 1 := ⟨s - 1, by omega⟩
    show ((frenchStep dur vr1 f startDate k st).1 ::
        frenchAux dur vr1 f startDate (k + 1) n (frenchStep dur vr1 f startDate k st).2.1)[j+1]? =
      ((frenchStep dur vr2 f startDate k st).1 ::
        frenchAux dur vr2 f startDate (k + 1) n (frenchStep dur vr2 f startDate k st).2.1)[j+1]?
    simp only [List.getElem?_cons_succ]
    rw [frenchStep_congr dur vr1 vr2 f startDate k st (hagree k le_rfl (by omega))]
    exact ih n (k + 1) (frenchStep dur vr2 f startDate k st).2.1 (by omega)
      (fun t ht1 ht2 => hagree t (by omega) (by omega))

lemma frenchAux_getElem_shift (dur : ℕ) (vr : ℕ → Option ℚ) (f : Frequency)
    (startDate : Date) :
    ∀ t s k st j, t ≤ s →
      (frenchAux dur vr f startDate k s st)[t + j]? =
        (frenchAux dur vr f startDate (k + t) (s - t)
          (frenchRun dur vr f startDate k t st))[j]? := by
  intro t
  induction t with
  | zero =>
    intro s k st j hts
    show (frenchAux dur vr f startDate k s st)[0 + j]? = _
    have e1 : 0 + j = j := by omega
    have e2 : k + 0 = k := by omega
    have e3 : s - 0 = s := by omega
    rw [e1, e2, e3]
    rfl
  | succ t ih =>
    intro s k st j hts
    obtain ⟨n, rfl⟩ : ∃ n, s = n + 1 := ⟨s - 1, by omega⟩
    show ((frenchStep dur vr f startDate k st).1 ::
      frenchAux dur vr f startDate (k + 1) n (frenchStep dur vr f startDate k st).2.1)[t+1+j]? = _
    have e0 : t + 1 + j = (t + j) + 1 := by omega
    rw [e0]
    simp only [List.getElem?_cons_succ]
    rw [ih n (k + 1) (frenchStep dur vr f startDate k st).2.1 j (by omega)]
    have e1 : k + 1 + t = k + (t + 1) := by omega
    have e2 : n - t = n + 1 - (t + 1) := by omega
    rw [e1, e2]
    rfl

/-- The fields of an installment that rate-override alignment compares:
everything except the (shifted) number and due date. -/
def finParts (i : Installment) : ℚ × ℚ × ℚ × InstallmentStatus :=
  (i.amount, i.capital, i.interest, i.status)

lemma frenchStep_align (dur1 dur2 : ℕ) (vr1 vr2 : ℕ → Option ℚ) (f1 f2 : Frequency)
    (start1 start2 : Date) (k1 k2 : ℕ) (st : FrenchState) (h1 : vr1 k1 = none)
    (h2 : vr2 k2 = none) (hk1 : k1 ≠ 1) (hk2 : k2 ≠ 1) (hdd : k1 = dur1 ↔ k2 = dur2) :
    finParts (frenchStep dur1 vr1 f1 start1 k1 st).1 =
      finParts (frenchStep dur2 vr2 f2 start2 k2 st).1 ∧
    (frenchStep dur1 vr1 f1 start1 k1 st).2.1 = (frenchStep dur2 vr2 f2 start2 k2 st).2.1 := by
  simp only [finParts, frenchStep, h1, h2, Option.isSome_none, Option.getD_none,
    Bool.false_eq_true, or_false, if_neg hk1, if_neg hk2]
  by_cases hd : k1 = dur1
  · rw [if_pos hd, if_pos (hdd.mp hd), if_pos hd, if_pos (hdd.mp hd)]
    exact ⟨rfl, rfl⟩
  · rw [if_neg hd, if_neg (fun h => hd (hdd.mpr h)), if_neg hd,
      if_neg (fun h => hd (hdd.mpr h))]
    exact ⟨rfl, rfl⟩

lemma frenchAux_succ (dur : ℕ) (vr : ℕ → Option ℚ) (f : Frequency) (startDate : Date)
    (k s : ℕ) (st : FrenchState) :
    frenchAux dur vr f startDate k (s + 1) st =
      (frenchStep dur vr f startDate k st).1 ::
        frenchAux dur vr f startDate (k + 1) s (frenchStep dur vr f startDate k st).2.1 := rfl

lemma frenchAux_align (dur1 dur2 : ℕ) (vr1 vr2 : ℕ → Option ℚ) (f1 f2 : Frequency)
    (start1 start2 : Date) :
    ∀ s k1 k2 st, 2 ≤ k1 → 2 ≤ k2 → dur1 + k2 = dur2 + k1 →
      (∀ t, k1 ≤ t → vr1 t = none) → (∀ t, k2 ≤ t → vr2 t = none) →
      ∀ j : ℕ, Option.map finParts ((frenchAux dur1 vr1 f1 start1 k1 s st)[j]?) =
           Option.map finParts ((frenchAux dur2 vr2 f2 start2 k2 s st)[j]?) := by
  intro s
  induction s with
  | zero => intro k1 k2 st _ _ _ _ _ j; rfl
  | succ s ih =>
    intro k1 k2 st hk1 hk2 hdd hv1 hv2 j
    have hstep := frenchStep_align dur1 dur2 vr1 vr2 f1 f2 start1 start2 k1 k2 st
      (hv1 k1 le_rfl) (hv2 k2 le_rfl) (by omega) (by omega) (by omega)
    obtain ⟨hparts, hst⟩ := hstep
    cases j with
    | zero =>
      rw [frenchAux_succ, frenchAux_succ, List.getElem?_cons_zero, List.getElem?_cons_zero]
      rw [Option.map_some', Option.map_some', hparts]
    | succ j =>
      rw [frenchAux_succ, frenchAux_succ, List.getElem?_cons_succ, List.getElem?_cons_succ, hst]
      exact ih (k1 + 1) (k2 + 1) (frenchStep dur2 vr2 f2 start2 k2 st).2.1 (by omega) (by omega)
        (by omega) (fun t ht => hv1 t (by omega)) (fun t ht => hv2 t (by omega)) j

lemma frenchStep_override_vs_fresh (dur k0 : ℕ) (nr : ℚ) (vr1 : ℕ → Option ℚ)
    (hvr : vr1 k0 = some nr) (f1 f2 : Frequency) (start1 start2 : Date) (st1 : FrenchState)
    (hk : 1 ≤ k0) (hkd : k0 ≤ dur) :
    finParts (frenchStep dur vr1 f1 start1 k0 st1).1 =
      finParts (frenchStep (dur - k0 + 1) (fun _ => none) f2 start2 1 ⟨nr, 0, st1.rem⟩).1 ∧
    (frenchStep dur vr1 f1 start1 k0 st1).2.1 =
      (frenchStep (dur - k0 + 1) (fun _ => none) f2 start2 1 ⟨nr, 0, st1.rem⟩).2.1 := by
  have et : dur - k0 + 1 - 1 + 1 = dur - k0 + 1 := by omega
  simp only [finParts, frenchStep, hvr, Option.isSome_some, Option.getD_some,
    Option.isSome_none, Option.getD_none, Bool.false_eq_true, eq_self_iff_true, or_true,
    true_or, or_false, if_true, et]
  by_cases hd : k0 = dur
  · rw [if_pos hd, if_pos (by omega : 1 = dur - k0 + 1), if_pos hd,
      if_pos (by omega : 1 = dur - k0 + 1)]
    exact ⟨rfl, rfl⟩
  · rw [if_neg hd, if_neg (by omega : ¬ (1 = dur - k0 + 1)), if_neg hd,
      if_neg (by omega : ¬ (1 = dur - k0 + 1))]
    exact ⟨rfl, rfl⟩

/-- C2: in French mode, a single rate override at installment `k0`
(`1 < k0 ≤ duration`) changes no installment before `k0` (they equal the
override-free schedule exactly), and the installments `k0..duration`
carry exactly the amounts, capital and interest portions, and statuses of
a fresh French loan whose principal is the remaining balance after
installment `k0 - 1`, whose rate is the override, and whose duration is
`duration - k0 + 1` - in particular installment `k0` carries the
re-derived annuity payment of that fresh loan. -/
theorem french_rate_override_spec (amount rate0 newRate : ℚ) (f : Frequency) (dur k0 : ℕ)
    (startDate freshStart : Date) (hk1 : 1 < k0) (hk2 : k0 ≤ dur) :
    (∀ j : ℕ, j < k0 - 1 →
      (calculateSchedule amount rate0 InterestType.PERCENTAGE f dur LoanType.FRENCH startDate
        (fun t => if t = k0 then some newRate else none))[j]? =
      (calculateSchedule amount rate0 InterestType.PERCENTAGE f dur LoanType.FRENCH startDate
        (fun _ => none))[j]?) ∧
    (∀ j : ℕ, j < dur - k0 + 1 →
      Option.map finParts
        ((calculateSchedule amount rate0 InterestType.PERCENTAGE f dur LoanType.FRENCH startDate
          (fun t => if t = k0 then some newRate else none))[k0 - 1 + j]?) =
      Option.map finParts
        ((calculateSchedule
            (remainingAfter amount rate0 f dur startDate
              (fun t => if t = k0 then some newRate else none) (k0 - 1))
            newRate InterestType.PERCENTAGE f (dur - k0 + 1) LoanType.FRENCH freshStart
            (fun _ => none))[j]?)) := by
  constructor
  · intro j hj
    show (frenchAux dur (fun t => if t = k0 then some newRate else none) f startDate 1 dur
        ⟨rate0, 0, amount⟩)[j]? =
      (frenchAux dur (fun _ => none) f startDate 1 dur ⟨rate0, 0, amount⟩)[j]?
    refine frenchAux_congr_prefix dur _ _ f startDate j dur 1 ⟨rate0, 0, amount⟩ (by omega) ?_
    intro t ht1 ht2
    rw [if_neg (by omega)]
  · intro j hj
    show Option.map finParts
        ((frenchAux dur (fun t => if t = k0 then some newRate else none) f startDate 1 dur
          ⟨rate0, 0, amount⟩)[k0 - 1 + j]?) =
      Option.map finParts
        ((frenchAux (dur - k0 + 1) (fun _ => none) f freshStart 1 (dur - k0 + 1)
          ⟨newRate, 0,
            (frenchRun dur (fun t => if t = k0 then some newRate else none) f startDate 1
              (k0 - 1) ⟨rate0, 0, amount⟩).rem⟩)[j]?)
    rw [frenchAux_getElem_shift dur _ f startDate (k0 - 1) dur 1 ⟨rate0, 0, amount⟩ j (by omega)]
    have e1 : 1 + (k0 - 1) = k0 := by omega
    have e2 : dur - (k0 - 1) = dur - k0 + 1 := by omega
    rw [e1, e2]
    have hover := frenchStep_override_vs_fresh dur k0 newRate
      (fun t => if t = k0 then some newRate else none) (by simp) f f startDate
      freshStart
      (frenchRun dur (fun t => if t = k0 then some newRate else none) f startDate 1 (k0 - 1)
        ⟨rate0, 0, amount⟩)
      (by omega) hk2
    obtain ⟨s, hs⟩ : ∃ s, dur - k0 + 1 = s + 1 := ⟨dur - k0, by omega⟩
    rw [hs] at hover ⊢
    cases j with
    | zero =>
      rw [frenchAux_succ, frenchAux_succ, List.getElem?_cons_zero, List.getElem?_cons_zero,
        Option.map_some', Option.map_some', hover.1]
    | succ j =>
      rw [frenchAux_succ, frenchAux_succ, List.getElem?_cons_succ, List.getElem?_cons_succ,
        hover.2]
      refine frenchAux_align dur (s + 1) _ _ f f startDate freshStart s (k0 + 1) 2 _
        (by omega) (by omega) (by omega) ?_ (fun t ht => rfl) j
      intro t ht
      rw [if_neg (by omega)]

/-- C2 witness: instantiating the override theorem at 1000 / 10% /
Monthly / 4 periods with an override to 20% at installment 2, the first
installment is unchanged. -/
theorem french_rate_override_spec_witness :
    (calculateSchedule 1000 10 InterestType.PERCENTAGE Frequency.MONTHLY 4 LoanType.FRENCH
      ⟨2024, 1, 1⟩ (fun t => if t = 2 then some 20 else none))[0]? =
    (calculateSchedule 1000 10 InterestType.PERCENTAGE Frequency.MONTHLY 4 LoanType.FRENCH
      ⟨2024, 1, 1⟩ (fun _ => none))[0]? :=
  (french_rate_override_spec 1000 10 20 Frequency.MONTHLY 4 2 ⟨2024, 1, 1⟩ ⟨2024, 1, 1⟩
    (by norm_num) (by norm_num)).1 0 (by norm_num)

/-! ## Ledger lemmas -/

lemma nodup_number_unique :
    ∀ (l : List Installment), (l.map Installment.number).Nodup →
      ∀ (i j : ℕ) (a b : Installment), l[i]? = some a → l[j]? = some b →
        a.number = b.number → i = j := by
  intro l
  induction l with
  | nil => intro _ i j a b h; rw [List.getElem?_nil] at h; cases h
  | cons x rest ih =>
    intro hnd i j a b ha hb hab
    rw [List.map_cons, List.nodup_cons] at hnd
    obtain ⟨hx, hrest⟩ := hnd
    cases i with
    | zero =>
      cases j with
      | zero => rfl
      | succ j =>
        rw [List.getElem?_cons_zero, Option.some.injEq] at ha
        rw [List.getElem?_cons_succ] at hb
        subst ha
        exact absurd (hab ▸ List.mem_map_of_mem Installment.number (List.getElem?_mem hb)) hx
    | succ i =>
      cases j with
      | zero =>
        rw [List.getElem?_cons_zero, Option.some.injEq] at hb
        rw [List.getElem?_cons_succ] at ha
        subst hb
        exact absurd (hab ▸ List.mem_map_of_mem Installment.number (List.getElem?_mem ha)) hx
      | succ j =>
        rw [List.getElem?_cons_succ] at ha hb
        rw [ih hrest i j a b ha hb hab]

lemma payInstallmentList_cons (n now : ℕ) (a : Installment) (rest : List Installment) :
    payInstallmentList n now (a :: rest) =
      if a.number == n then
        { a with status := InstallmentStatus.PAID, paymentDate := some now } :: rest
      else a :: payInstallmentList n now rest := rfl

lemma payInstallmentList_getElem (n now : ℕ) :
    ∀ (l : List Installment) (idx : ℕ) (inst : Installment), l[idx]? = some inst →
      inst.number = n →
      (∀ j b, j < idx → l[j]? = some b → b.number ≠ n) →
      (payInstallmentList n now l)[idx]? =
        some { inst with status := InstallmentStatus.PAID, paymentDate := some now } ∧
      ∀ j : ℕ, j ≠ idx → (payInstallmentList n now l)[j]? = l[j]? := by
  intro l
  induction l with
  | nil => intro idx inst h; rw [List.getElem?_nil] at h; cases h
  | cons a rest ih =>
    intro idx inst hidx hnum hbefore
    cases idx with
    | zero =>
      rw [List.getElem?_cons_zero, Option.some.injEq] at hidx
      subst hidx
      rw [payInstallmentList_cons, if_pos (by simp [hnum])]
      refine ⟨List.getElem?_cons_zero, ?_⟩
      intro j hj
      obtain ⟨t, rfl⟩ : ∃ t, j = t + 1 := ⟨j - 1, by omega⟩
      rw [List.getElem?_cons_succ, List.getElem?_cons_succ]
    | succ idx =>
      rw [List.getElem?_cons_succ] at hidx
      have ha : a.number ≠ n := hbefore 0 a (by omega) List.getElem?_cons_zero
      have hrec := ih idx inst hidx hnum
        (fun j b hji hjb => hbefore (j + 1) b (by omega)
          (by rw [List.getElem?_cons_succ]; exact hjb))
      rw [payInstallmentList_cons, if_neg (by simp [ha])]
      refine ⟨?_, ?_⟩
      · rw [List.getElem?_cons_succ]
        exact hrec.1
      · intro j hj
        cases j with
        | zero => rw [List.getElem?_cons_zero, List.getElem?_cons_zero]
        | succ j =>
          rw [List.getElem?_cons_succ, List.getElem?_cons_succ]
          exact hrec.2 j (by omega)

lemma foldl_add_amount :
    ∀ (l : List Installment) (a : ℚ),
      l.foldl (fun acc curr => acc + curr.amount) a = a + (l.map Installment.amount).sum := by
  intro l
  induction l with
  | nil => intro a; simp
  | cons x rest ih =>
    intro a
    rw [List.foldl_cons, ih, List.map_cons, List.sum_cons]
    ring

lemma paidTotal_eq_sum (l : List Installment) :
    paidTotal l = ((l.filter (fun i => i.status == InstallmentStatus.PAID)).map
      Installment.amount).sum := by
  unfold paidTotal
  rw [foldl_add_amount, zero_add]

/-! ## Claim C3: applying a payment to a pending installment -/

/-- C3: for a loan whose installment numbers are pairwise distinct,
applying a payment to the Pending installment numbered `m` succeeds, sets
exactly that installment's status to Paid and its paymentDate to the
supplied timestamp, leaves every other installment untouched, recomputes
`totalPaid` as the exact sum of `totalAmount` over all Paid installments,
leaves `totalPayable` unchanged, and sets the loan status to Completed
exactly if every installment is then Paid (otherwise it is unchanged). -/
theorem payInstallment_pending_spec (loan : Loan) (m now idx : ℕ) (inst : Installment)
    (hnd : (loan.installments.map Installment.number).Nodup)
    (hidx : loan.installments[idx]? = some inst) (hnum : inst.number = m)
    (hpend : inst.status = InstallmentStatus.PENDING) :
    ∃ updated : Loan, payInstallment loan m now = some updated ∧
      updated.installments[idx]? =
        some { inst with status := InstallmentStatus.PAID, paymentDate := some now } ∧
      (∀ j : ℕ, j ≠ idx → updated.installments[j]? = loan.installments[j]?) ∧
      updated.totalPaid = ((updated.installments.filter
        (fun i => i.status == InstallmentStatus.PAID)).map Installment.amount).sum ∧
      updated.totalPayable = loan.totalPayable ∧
      ((∀ i ∈ updated.installments, i.status = InstallmentStatus.PAID) →
        updated.status = LoanStatus.COMPLETED) ∧
      (¬ (∀ i ∈ updated.installments, i.status = InstallmentStatus.PAID) →
        updated.status = loan.status) := by
  have hany : loan.installments.any (fun i => i.number == m) = true :=
    List.any_eq_true.mpr ⟨inst, List.getElem?_mem hidx, by simp [hnum]⟩
  have hbefore : ∀ j b, j < idx → loan.installments[j]? = some b → b.number ≠ m := by
    intro j b hji hjb hbm
    have := nodup_number_unique loan.installments hnd j idx b inst hjb hidx (by rw [hbm, hnum])
    omega
  have hlist := payInstallmentList_getElem m now loan.installments idx inst hidx hnum hbefore
  unfold payInstallment
  rw [if_pos hany]
  refine ⟨_, rfl, hlist.1, hlist.2, paidTotal_eq_sum _, rfl, ?_, ?_⟩
  · intro hall
    have htrue : (payInstallmentList m now loan.installments).all
        (fun i => i.status == InstallmentStatus.PAID) = true :=
      List.all_eq_true.mpr (fun i hi => by simp [hall i hi])
    show (if (payInstallmentList m now loan.installments).all
        (fun i => i.status == InstallmentStatus.PAID) = true then LoanStatus.COMPLETED
      else loan.status) = LoanStatus.COMPLETED
    rw [if_pos htrue]
  · intro hnall
    have hfalse : ¬ ((payInstallmentList m now loan.installments).all
        (fun i => i.status == InstallmentStatus.PAID) = true) := by
      intro hall
      exact hnall (fun i hi => by simpa using List.all_eq_true.mp hall i hi)
    show (if (payInstallmentList m now loan.installments).all
        (fun i => i.status == InstallmentStatus.PAID) = true then LoanStatus.COMPLETED
      else loan.status) = loan.status
    rw [if_neg hfalse]

/-- C3 witness: paying the single pending installment of a concrete loan
succeeds. -/
theorem payInstallment_pending_spec_witness :
    (payInstallment
      ⟨[⟨1, ⟨2024, 2, 1⟩, 110, 100, 10, InstallmentStatus.PENDING, none⟩],
        LoanStatus.ACTIVE, 110, 0⟩ 1 7).isSome = true := by
  obtain ⟨u, hu, _⟩ := payInstallment_pending_spec
    ⟨[⟨1, ⟨2024, 2, 1⟩, 110, 100, 10, InstallmentStatus.PENDING, none⟩],
      LoanStatus.ACTIVE, 110, 0⟩ 1 7 0
    ⟨1, ⟨2024, 2, 1⟩, 110, 100, 10, InstallmentStatus.PENDING, none⟩
    (by simp) rfl rfl rfl
  rw [hu]
  rfl

/-! ## Claim C10, amended part: re-payment on self-consistent loans -/

/-- The projection of an installment that `totalPaid` and the
all-paid check depend on. -/
def statusAmount (i : Installment) : InstallmentStatus × ℚ := (i.status, i.amount)

lemma payInstallmentList_map_statusAmount (n now : ℕ) :
    ∀ l : List Installment, (∀ a ∈ l, a.number = n → a.status = InstallmentStatus.PAID) →
      (payInstallmentList n now l).map statusAmount = l.map statusAmount := by
  intro l
  induction l with
  | nil => intro _; rfl
  | cons a rest ih =>
    intro h
    rw [payInstallmentList_cons]
    by_cases ha : (a.number == n) = true
    · rw [if_pos ha, List.map_cons, List.map_cons]
      congr 1
      show (InstallmentStatus.PAID, a.amount) = (a.status, a.amount)
      rw [h a (List.mem_cons_self a rest) (by simpa using ha)]
    · rw [if_neg ha, List.map_cons, List.map_cons,
        ih (fun b hb hbn => h b (List.mem_cons_of_mem a hb) hbn)]

lemma filterPaid_map_amount_congr :
    ∀ l1 l2 : List Installment, l1.map statusAmount = l2.map statusAmount →
      (l1.filter (fun i => i.status == InstallmentStatus.PAID)).map Installment.amount =
      (l2.filter (fun i => i.status == InstallmentStatus.PAID)).map Installment.amount := by
  intro l1
  induction l1 with
  | nil =>
    intro l2 h
    have h2 : l2 = [] := List.map_eq_nil.mp h.symm
    rw [h2]
  | cons a rest ih =>
    intro l2 h
    cases l2 with
    | nil => exact absurd h (by simp)
    | cons b rest2 =>
      rw [List.map_cons, List.map_cons, List.cons.injEq] at h
      obtain ⟨h1, h2⟩ := h
      have hs : a.status = b.status := congrArg Prod.fst h1
      have ham : a.amount = b.amount := congrArg Prod.snd h1
      rw [List.filter_cons, List.filter_cons, hs]
      by_cases hb : (b.status == InstallmentStatus.PAID) = true
      · rw [if_pos hb, if_pos hb, List.map_cons, List.map_cons, ham, ih rest2 h2]
      · rw [if_neg hb, if_neg hb, ih rest2 h2]

lemma allPaid_congr :
    ∀ l1 l2 : List Installment, l1.map statusAmount = l2.map statusAmount →
      l1.all (fun i => i.status == InstallmentStatus.PAID) =
      l2.all (fun i => i.status == InstallmentStatus.PAID) := by
  intro l1
  induction l1 with
  | nil =>
    intro l2 h
    have h2 : l2 = [] := List.map_eq_nil.mp h.symm
    rw [h2]
  | cons a rest ih =>
    intro l2 h
    cases l2 with
    | nil => exact absurd h (by simp)
    | cons b rest2 =>
      rw [List.map_cons, List.map_cons, List.cons.injEq] at h
      obtain ⟨h1, h2⟩ := h
      have hs : a.status = b.status := congrArg Prod.fst h1
      rw [List.all_cons, List.all_cons, hs, ih rest2 h2]

/-- C10 amended: on a loan with pairwise-distinct installment numbers
whose `totalPaid` already equals the recomputed Paid sum and whose status
is already Completed whenever all installments are Paid, re-applying a
payment to the already-Paid installment `m` succeeds, and the only field
that changes is that installment's `paymentDate`, silently overwritten
with the new timestamp: the installment's status (and every other
installment), `totalPaid`, `totalPayable` and the loan status are all
unchanged. -/
theorem payInstallment_repay_spec (loan : Loan) (m now idx : ℕ) (inst : Installment)
    (hnd : (loan.installments.map Installment.number).Nodup)
    (hidx : loan.installments[idx]? = some inst) (hnum : inst.number = m)
    (hpaid : inst.status = InstallmentStatus.PAID)
    (htp : loan.totalPaid = paidTotal loan.installments)
    (hstat : (∀ i ∈ loan.installments, i.status = InstallmentStatus.PAID) →
      loan.status = LoanStatus.COMPLETED) :
    ∃ updated : Loan, payInstallment loan m now = some updated ∧
      updated.installments[idx]? = some { inst with paymentDate := some now } ∧
      (∀ j : ℕ, j ≠ idx → updated.installments[j]? = loan.installments[j]?) ∧
      updated.totalPaid = loan.totalPaid ∧
      updated.totalPayable = loan.totalPayable ∧
      updated.status = loan.status := by
  have hany : loan.installments.any (fun i => i.number == m) = true :=
    List.any_eq_true.mpr ⟨inst, List.getElem?_mem hidx, by simp [hnum]⟩
  have hbefore : ∀ j b, j < idx → loan.installments[j]? = some b → b.number ≠ m := by
    intro j b hji hjb hbm
    have := nodup_number_unique loan.installments hnd j idx b inst hjb hidx (by rw [hbm, hnum])
    omega
  have hlist := payInstallmentList_getElem m now loan.installments idx inst hidx hnum hbefore
  have hallm : ∀ a ∈ loan.installments, a.number = m → a.status = InstallmentStatus.PAID := by
    intro a ha ham
    obtain ⟨i, hi⟩ := List.mem_iff_getElem?.mp ha
    have hieq := nodup_number_unique loan.installments hnd i idx a inst hi hidx
      (by rw [ham, hnum])
    subst hieq
    rw [hi, Option.some.injEq] at hidx
    rw [← hidx] at hpaid
    exact hpaid
  have hproj := payInstallmentList_map_statusAmount m now loan.installments hallm
  unfold payInstallment
  rw [if_pos hany]
  refine ⟨_, rfl, ?_, hlist.2, ?_, rfl, ?_⟩
  · rw [hlist.1, ← hpaid]
  · show paidTotal (payInstallmentList m now loan.installments) = loan.totalPaid
    rw [htp, paidTotal_eq_sum, paidTotal_eq_sum]
    exact congrArg List.sum (filterPaid_map_amount_congr _ _ hproj)
  · show (if (payInstallmentList m now loan.installments).all
        (fun i => i.status == InstallmentStatus.PAID) = true then LoanStatus.COMPLETED
      else loan.status) = loan.status
    rw [allPaid_congr _ _ hproj]
    by_cases hall : loan.installments.all (fun i => i.status == InstallmentStatus.PAID) = true
    · rw [if_pos hall, hstat (fun i hi => by simpa using List.all_eq_true.mp hall i hi)]
    · rw [if_neg hall]

/-- C10 amended witness: re-paying an already-Paid installment of a
self-consistent loan leaves the aggregates and status unchanged. -/
theorem payInstallment_repay_spec_witness :
    (payInstallment
      ⟨[⟨1, ⟨2024, 2, 1⟩, 110, 100, 10, InstallmentStatus.PAID, some 5⟩],
        LoanStatus.COMPLETED, 110, 110⟩ 1 7).map
      (fun l => (l.totalPaid, l.totalPayable, l.status)) =
    some (110, 110, LoanStatus.COMPLETED) := by
  obtain ⟨u, hu, _, _, h3, h4, h5⟩ := payInstallment_repay_spec
    ⟨[⟨1, ⟨2024, 2, 1⟩, 110, 100, 10, InstallmentStatus.PAID, some 5⟩],
      LoanStatus.COMPLETED, 110, 110⟩ 1 7 0
    ⟨1, ⟨2024, 2, 1⟩, 110, 100, 10, InstallmentStatus.PAID, some 5⟩
    (by simp) rfl rfl rfl (by norm_num [paidTotal, List.filter]) (fun _ => rfl)
  rw [hu, Option.map_some', h3, h4, h5]
